import Mathlib

/-!
Verification of the GitToys bulk-commit core (src/git/gitService.ts and
webview-ui/bulkCommit.ts), shallowly embedded in Lean 4.

Conventions of the embedding:
- The optional repository argument of every GitService method (the TS
  pattern "repo || this.getActiveRepository()") is modelled as an
  Option Repository / Option sigma argument holding the resolved
  repository, with none meaning that no repository context is bound.
- Asynchronous calls into the VS Code git extension that may throw are
  modelled as functions returning an error payload: Option String
  (none = success) for staging and committing, Except String for log.
- A thrown JS exception escaping a method is modelled by Except.error;
  a method that cannot throw is modelled by a total function.
-/

set_option autoImplicit false

namespace GitToys

/-- Raw git status codes of the VS Code git extension API (src/types/git.ts,
as consumed by gitService.ts). -/
inductive Status where
  | INDEX_MODIFIED
  | INDEX_ADDED
  | INDEX_DELETED
  | INDEX_RENAMED
  | INDEX_COPIED
  | MODIFIED
  | DELETED
  | UNTRACKED
  | IGNORED
  | INTENT_TO_ADD
  | ADDED_BY_US
  | ADDED_BY_THEM
  | DELETED_BY_US
  | DELETED_BY_THEM
  | BOTH_ADDED
  | BOTH_DELETED
  | BOTH_MODIFIED
  deriving DecidableEq, Repr

/-- The six canonical file statuses of gitService.ts (type FileStatus). -/
inductive FileStatus where
  | modified
  | added
  | deleted
  | renamed
  | untracked
  | conflicted
  deriving DecidableEq, Repr

/-- Embeds GitService.convertStatus: collapse a raw status code into one of
the six canonical statuses; unrecognised codes fall to the default branch
returning modified. -/
def convertStatus (status : Status) : FileStatus :=
  match status with
  | .INDEX_MODIFIED | .MODIFIED => .modified
  | .INDEX_ADDED | .UNTRACKED | .INTENT_TO_ADD => .added
  | .INDEX_DELETED | .DELETED => .deleted
  | .INDEX_RENAMED | .INDEX_COPIED => .renamed
  | .ADDED_BY_US | .ADDED_BY_THEM | .DELETED_BY_US | .DELETED_BY_THEM
  | .BOTH_ADDED | .BOTH_DELETED | .BOTH_MODIFIED => .conflicted
  | _ => .modified

/-- A VS Code Uri, restricted to the two projections gitService.ts reads:
uri.fsPath and uri.toString(). -/
structure Uri where
  fsPath : String
  toStr : String
  deriving DecidableEq, Repr

/-- A raw change entry of repository.state (fields used by gitService.ts). -/
structure Change where
  uri : Uri
  status : Status
  deriving DecidableEq, Repr

/-- Branch metadata of repository.state.HEAD (fields used by gitService.ts).
In the VS Code API, upstream, ahead and behind are optional and absent when
the branch has no upstream tracking branch configured. -/
structure Branch where
  name : Option String
  upstream : Option String
  ahead : Option Int
  behind : Option Int
  deriving DecidableEq, Repr

/-- Repository state snapshot (fields used by gitService.ts). -/
structure RepoState where
  workingTreeChanges : List Change
  indexChanges : List Change
  HEAD : Option Branch
  deriving DecidableEq, Repr

/-- The repository handle as read by gitService.ts. -/
structure Repository where
  rootUri : Uri
  state : RepoState
  deriving DecidableEq, Repr

/-- A unified change entry (interface FileChange of gitService.ts). -/
structure FileChange where
  path : String
  relativePath : String
  status : FileStatus
  staged : Bool
  uri : String
  deriving DecidableEq, Repr

/-- Embeds the JS string method a.startsWith(b): b is a code-unit
sequence starting a, modelled on the character lists of the strings. -/
def jsStartsWith (s pre : String) : Bool :=
  pre.data.isPrefixOf s.data

/-- Embeds the JS call s.replace of the global regex matching one backslash
character with a slash: every backslash character (code 92) is replaced by
a slash (code 47). -/
def replaceBackslashes (s : String) : String :=
  String.map (fun c => if c = Char.ofNat 92 then Char.ofNat 47 else c) s

/-- Embeds GitService.getRelativePath. -/
def getRelativePath (absolutePath rootPath : String) : String :=
  if jsStartsWith absolutePath rootPath then
    replaceBackslashes (absolutePath.drop (rootPath.length + 1))
  else
    replaceBackslashes absolutePath

/-- Builds the FileChange record literal pushed by GitService.getChangedFiles;
the working-tree pass pushes it with staged = false, the index pass with
staged = true, all other fields being computed identically. -/
def toFileChange (rootPath : String) (staged : Bool) (change : Change) : FileChange :=
  { path := change.uri.fsPath
    relativePath := getRelativePath change.uri.fsPath rootPath
    status := convertStatus change.status
    staged := staged
    uri := change.uri.toStr }

/-- Embeds the body of the index-pass loop of GitService.getChangedFiles:
findIndex on the accumulated list; if the path is already present, mutate
the staged flag of that entry to true; otherwise push a fresh staged entry. -/
def mergeIndexChange (rootPath : String) (changes : List FileChange)
    (change : Change) : List FileChange :=
  match changes.findIdx? (fun c => c.path == change.uri.fsPath) with
  | some i =>
    match changes.get? i with
    | some c => changes.set i { c with staged := true }
    | none => changes
  | none => changes ++ [toFileChange rootPath true change]

/-- Embeds GitService.getChangedFiles: with no repository bound the method
returns the empty list; otherwise it seeds the result from the working-tree
changes (staged = false) and folds the index changes into it. -/
def getChangedFiles (repo : Option Repository) : List FileChange :=
  match repo with
  | none => []
  | some repository =>
    let rootPath := repository.rootUri.fsPath
    let changes := repository.state.workingTreeChanges.map (toFileChange rootPath false)
    repository.state.indexChanges.foldl (mergeIndexChange rootPath) changes

/-- A commit task (interface CommitTask of gitService.ts). -/
structure CommitTask where
  filePath : String
  message : String
  deriving DecidableEq, Repr

/-- A per-task commit outcome (interface CommitResult of gitService.ts). -/
structure CommitResult where
  success : Bool
  filePath : String
  message : Option String
  error : Option String
  deriving DecidableEq, Repr

/-- The aggregate outcome (interface BulkCommitResult of gitService.ts). -/
structure BulkCommitResult where
  successful : List CommitResult
  failed : List CommitResult
  totalCommits : Nat
  deriving DecidableEq, Repr

/-- The repository mutation capability used by GitService.bulkCommit:
repository.add and repository.commit, each taking and returning a backend
state of type sigma together with an error payload (none = the call
returned normally, some e = the call threw with message e). -/
structure Backend (σ : Type) where
  add : σ → List String → σ × Option String
  commit : σ → String → σ × Option String

/-- Embeds the for-loop of GitService.bulkCommit: stage the file of the task,
then commit with the message of the task; on either failure push a failed
CommitResult carrying the error message and continue with the next task;
on success push a successful CommitResult. -/
def bulkCommitLoop {σ : Type} (b : Backend σ) :
    σ → List CommitTask → BulkCommitResult → σ × BulkCommitResult
  | s, [], res => (s, res)
  | s, task :: rest, res =>
    let a := b.add s [task.filePath]
    match a.2 with
    | some e =>
      bulkCommitLoop b a.1 rest
        { res with failed := res.failed ++
            [{ success := false, filePath := task.filePath,
               message := some task.message, error := some e }] }
    | none =>
      let c := b.commit a.1 task.message
      match c.2 with
      | some e =>
        bulkCommitLoop b c.1 rest
          { res with failed := res.failed ++
              [{ success := false, filePath := task.filePath,
                 message := some task.message, error := some e }] }
      | none =>
        bulkCommitLoop b c.1 rest
          { res with successful := res.successful ++
              [{ success := true, filePath := task.filePath,
                 message := some task.message, error := none }] }

/-- Embeds GitService.bulkCommit: throws (Except.error) when no repository
is bound; otherwise initialises the result with totalCommits set to the
task count and runs the loop over all tasks, returning the final backend
state and the aggregate result. -/
def bulkCommit {σ : Type} (b : Backend σ) (repo : Option σ)
    (tasks : List CommitTask) : Except String (σ × BulkCommitResult) :=
  match repo with
  | none => .error "No repository found"
  | some s =>
    .ok (bulkCommitLoop b s tasks
      { successful := [], failed := [], totalCommits := tasks.length })

/-- Modelled from the spec algorithm of section 4.2: the per-task outcomes,
one CommitResult per task in input order, threading the backend state
exactly as the orchestrator does; used to state what bulkCommit computes. -/
def specTaskResults {σ : Type} (b : Backend σ) :
    σ → List CommitTask → List CommitResult
  | _, [] => []
  | s, task :: rest =>
    let a := b.add s [task.filePath]
    match a.2 with
    | some e =>
      { success := false, filePath := task.filePath,
        message := some task.message, error := some e }
        :: specTaskResults b a.1 rest
    | none =>
      let c := b.commit a.1 task.message
      match c.2 with
      | some e =>
        { success := false, filePath := task.filePath,
          message := some task.message, error := some e }
          :: specTaskResults b c.1 rest
      | none =>
        { success := true, filePath := task.filePath,
          message := some task.message, error := none }
          :: specTaskResults b c.1 rest

/-- Modelled from the spec algorithm of section 4.2: the backend state after
attempting every task in input order. -/
def specFinalState {σ : Type} (b : Backend σ) : σ → List CommitTask → σ
  | s, [] => s
  | s, task :: rest =>
    let a := b.add s [task.filePath]
    match a.2 with
    | some _ => specFinalState b a.1 rest
    | none => specFinalState b (b.commit a.1 task.message).1 rest

/-- Recursive restatement of mergeIndexChange (findIndex followed by an
in-place staged update of the first entry with the matching path, else a
push at the end), used to reason about the fold; proved equal to
mergeIndexChange below. -/
def mergeRecAux (rootPath : String) (change : Change) : List FileChange → List FileChange
  | [] => [toFileChange rootPath true change]
  | c :: cs =>
    if c.path == change.uri.fsPath then { c with staged := true } :: cs
    else c :: mergeRecAux rootPath change cs

/-- The sync status value returned by GitService.getSyncStatus. -/
structure SyncStatus where
  ahead : Int
  behind : Int
  deriving DecidableEq, Repr

/-- Embeds GitService.getSyncStatus: undefined when no repository is bound
or repository.state.HEAD is absent; otherwise the record built from
HEAD.ahead and HEAD.behind with the JS fallback (x or-else 0), which yields
0 exactly when the field is undefined or already 0. -/
def getSyncStatus (repo : Option Repository) : Option SyncStatus :=
  match repo with
  | none => none
  | some repository =>
    match repository.state.HEAD with
    | none => none
    | some head => some { ahead := head.ahead.getD 0, behind := head.behind.getD 0 }

/-- Embeds the per-message transform inside applyTemplateToSelected of
webview-ui/bulkCommit.ts: the message is left unchanged when it already
starts with the template, otherwise the template is prepended. -/
def applyTemplate (current template : String) : String :=
  if jsStartsWith current template then current else template ++ current

/-- The repository capability surface used by GitService.undoLastCommit:
log1 is the outcome of repository.log with maxEntries 1 (Except.error
models a thrown backend error, Except.ok the commit list, commits
abstracted to their hashes); undoOutcome is the outcome of executing the
built-in git.undoCommit command. -/
structure UndoRepo where
  log1 : Except String (List String)
  undoOutcome : Except String Unit

/-- Success-or-error result record of GitService.undoLastCommit. -/
structure OpResult where
  success : Bool
  error : Option String
  deriving DecidableEq, Repr

/-- Embeds GitService.undoLastCommit, additionally returning the trace of
state-mutating commands issued, each paired with whether it returned
normally (the only such command is git.undoCommit; repository.log is a
read). A thrown error anywhere in the body is caught and turned into a
failure record, so the function is total. -/
def undoLastCommit (repo : Option UndoRepo) : OpResult × List (String × Bool) :=
  match repo with
  | none => ({ success := false, error := some "No repository found" }, [])
  | some repository =>
    match repository.log1 with
    | .error e => ({ success := false, error := some e }, [])
    | .ok commits =>
      if commits.length = 0 then
        ({ success := false, error := some "No commits to undo" }, [])
      else
        match repository.undoOutcome with
        | .ok _ => ({ success := true, error := none }, [("git.undoCommit", true)])
        | .error e => ({ success := false, error := some e }, [("git.undoCommit", false)])

theorem bulkCommitLoop_spec {σ : Type} (b : Backend σ) :
    ∀ (tasks : List CommitTask) (s : σ) (res : BulkCommitResult),
      bulkCommitLoop b s tasks res =
        (specFinalState b s tasks,
         { successful := res.successful ++
             (specTaskResults b s tasks).filter (fun c => c.success),
           failed := res.failed ++
             (specTaskResults b s tasks).filter (fun c => !c.success),
           totalCommits := res.totalCommits }) := by
  intro tasks
  induction tasks with
  | nil => intro s res; simp [bulkCommitLoop, specFinalState, specTaskResults]
  | cons task rest ih =>
    intro s res
    simp only [bulkCommitLoop, specFinalState, specTaskResults]
    rcases h1 : (b.add s [task.filePath]).2 with _ | e1
    · rcases h2 : (b.commit (b.add s [task.filePath]).1 task.message).2 with _ | e2
      · simp [h1, h2, ih, List.filter]
      · simp [h1, h2, ih, List.filter]
    · simp [h1, ih, List.filter]

theorem specTaskResults_map_filePath {σ : Type} (b : Backend σ) :
    ∀ (tasks : List CommitTask) (s : σ),
      (specTaskResults b s tasks).map (fun c => c.filePath) =
        tasks.map (fun t => t.filePath) := by
  intro tasks
  induction tasks with
  | nil => intro s; simp [specTaskResults]
  | cons task rest ih =>
    intro s
    simp only [specTaskResults]
    rcases h1 : (b.add s [task.filePath]).2 with _ | e1
    · rcases h2 : (b.commit (b.add s [task.filePath]).1 task.message).2 with _ | e2
      · simp [h1, h2, ih]
      · simp [h1, h2, ih]
    · simp [h1, ih]

theorem specTaskResults_failed_mem {σ : Type} (b : Backend σ) :
    ∀ (tasks : List CommitTask) (s : σ),
      ∀ c ∈ specTaskResults b s tasks, c.success = false → c.error.isSome = true := by
  intro tasks
  induction tasks with
  | nil => intro s; simp [specTaskResults]
  | cons task rest ih =>
    intro s
    simp only [specTaskResults]
    rcases h1 : (b.add s [task.filePath]).2 with _ | e1
    · rcases h2 : (b.commit (b.add s [task.filePath]).1 task.message).2 with _ | e2
      · simp only [List.mem_cons]
        rintro c (rfl | hc)
        · intro hfalse; cases hfalse
        · exact ih _ c hc
      · simp only [List.mem_cons]
        rintro c (rfl | hc)
        · intro _; rfl
        · exact ih _ c hc
    · simp only [List.mem_cons]
      rintro c (rfl | hc)
      · intro _; rfl
      · exact ih _ c hc

theorem specTaskResults_failed_have_error {σ : Type} (b : Backend σ)
    (tasks : List CommitTask) (s : σ) :
    ((specTaskResults b s tasks).filter (fun c => !c.success)).all
      (fun c => !c.success && c.error.isSome) = true := by
  rw [List.all_eq_true]
  intro c hc
  have hmem := List.mem_filter.mp hc
  have hfail : c.success = false := by simpa using hmem.2
  have herr := specTaskResults_failed_mem b tasks s c hmem.1 hfail
  simp [hfail, herr]

/-- C1: bulkCommit with a bound repository never aborts early and never lets
a per-task error escape: it returns Except.ok of exactly the per-task
outcomes taken strictly in input order (the successful and failed lists are
the order-preserving partition of one outcome per task), every task
contributes one outcome whose filePath matches the corresponding task, and
every failed outcome has success = false and a present error payload. -/
theorem bulkCommit_never_aborts {σ : Type} (b : Backend σ) (s : σ)
    (tasks : List CommitTask) :
    bulkCommit b (some s) tasks =
      Except.ok (specFinalState b s tasks,
        { successful := (specTaskResults b s tasks).filter (fun c => c.success),
          failed := (specTaskResults b s tasks).filter (fun c => !c.success),
          totalCommits := tasks.length }) ∧
    (specTaskResults b s tasks).map (fun c => c.filePath) =
      tasks.map (fun t => t.filePath) ∧
    ((specTaskResults b s tasks).filter (fun c => !c.success)).all
      (fun c => !c.success && c.error.isSome) = true := by
  refine ⟨?_, specTaskResults_map_filePath b tasks s,
    specTaskResults_failed_have_error b tasks s⟩
  simp [bulkCommit, bulkCommitLoop_spec]

theorem filter_success_length_partition :
    ∀ (l : List CommitResult),
      (l.filter (fun c => c.success)).length +
        (l.filter (fun c => !c.success)).length = l.length := by
  intro l
  induction l with
  | nil => simp
  | cons c rest ih =>
    rcases h : c.success with _ | _ <;> simp [List.filter, h] <;> omega

theorem specTaskResults_length {σ : Type} (b : Backend σ)
    (tasks : List CommitTask) (s : σ) :
    (specTaskResults b s tasks).length = tasks.length := by
  have h := specTaskResults_map_filePath b tasks s
  have h2 := congrArg List.length h
  simpa using h2

/-- C2: whenever bulkCommit runs with a bound repository, the result
partitions the tasks: successful.length + failed.length equals the number
of tasks, and totalCommits equals the number of tasks. -/
theorem bulkCommit_partition {σ : Type} (b : Backend σ) (s : σ)
    (tasks : List CommitTask) :
    ∀ (st : σ) (r : BulkCommitResult),
      bulkCommit b (some s) tasks = Except.ok (st, r) →
        r.successful.length + r.failed.length = tasks.length ∧
        r.totalCommits = tasks.length := by
  intro st r h
  have hspec := (bulkCommit_never_aborts b s tasks).1
  rw [h] at hspec
  have hpair : (st, r) =
      (specFinalState b s tasks,
        ({ successful := (specTaskResults b s tasks).filter (fun c => c.success),
           failed := (specTaskResults b s tasks).filter (fun c => !c.success),
           totalCommits := tasks.length } : BulkCommitResult)) := by
    exact Except.ok.inj hspec
  have hr := congrArg Prod.snd hpair
  simp only at hr
  subst hr
  refine ⟨?_, rfl⟩
  simp only
  rw [filter_success_length_partition (specTaskResults b s tasks)]
  exact specTaskResults_length b tasks s

/-- Witness for C2 at a concrete run: one task against a backend whose
staging and committing always return normally. -/
theorem bulkCommit_partition_witness :
    ([({ success := true, filePath := "a.txt", message := some "m",
         error := none } : CommitResult)].length +
      ([] : List CommitResult).length = 1) ∧ (1 : Nat) = 1 :=
  bulkCommit_partition
    (σ := Unit)
    { add := fun s _ => (s, none), commit := fun s _ => (s, none) }
    () [{ filePath := "a.txt", message := "m" }] ()
    { successful := [{ success := true, filePath := "a.txt",
                       message := some "m", error := none }],
      failed := [], totalCommits := 1 }
    rfl

/-- C3: bulkCommit with no bound repository fails immediately with the
RepositoryNotFound error, for every backend and every task list: no
BulkCommitResult is produced and no staging or commit call is made (the
outcome does not depend on the backend at all). -/
theorem bulkCommit_no_repository (σ : Type) (b : Backend σ)
    (tasks : List CommitTask) :
    bulkCommit b none tasks = Except.error "No repository found" := rfl

theorem mergeIndexChange_eq_rec (rootPath : String) (change : Change) :
    ∀ l : List FileChange,
      mergeIndexChange rootPath l change = mergeRecAux rootPath change l := by
  intro l
  induction l with
  | nil => rfl
  | cons c cs ih =>
    rcases hp : (c.path == change.uri.fsPath) with _ | _
    · simp only [mergeIndexChange, mergeRecAux, List.findIdx?_cons, hp, if_neg,
        Bool.false_eq_true, not_false_iff, List.findIdx?_succ]
      cases hfind : List.findIdx? (fun d => d.path == change.uri.fsPath) cs with
      | none =>
        simp only [mergeIndexChange, hfind] at ih
        simpa [hfind] using ih
      | some j =>
        simp only [Option.map_some', List.get?, List.set]
        cases hget : cs.get? j with
        | none =>
          have hget2 : cs[j]? = none := by
            simpa [List.get?_eq_getElem?] using hget
          have ih2 : cs = mergeRecAux rootPath change cs := by
            simpa [mergeIndexChange, hfind, List.get?, hget2] using ih
          exact congrArg (fun xs => c :: xs) ih2
        | some d =>
          have hget2 : cs[j]? = some d := by
            simpa [List.get?_eq_getElem?] using hget
          have ih2 : cs.set j { d with staged := true } =
              mergeRecAux rootPath change cs := by
            simpa [mergeIndexChange, hfind, List.get?, hget2] using ih
          exact congrArg (fun xs => c :: xs) ih2
    · simp [mergeIndexChange, mergeRecAux, List.findIdx?_cons, hp, List.get?, List.set]

theorem mergeRecAux_path_of_found (rootPath : String) (change : Change) :
    ∀ l : List FileChange,
      l.any (fun c => c.path == change.uri.fsPath) = true →
        (mergeRecAux rootPath change l).map (fun c => c.path) =
          l.map (fun c => c.path) := by
  intro l
  induction l with
  | nil => simp
  | cons c cs ih =>
    intro hany
    rcases hp : (c.path == change.uri.fsPath) with _ | _
    · have htail : cs.any (fun c => c.path == change.uri.fsPath) = true := by
        simpa [List.any_cons, hp] using hany
      simp [mergeRecAux, hp, ih htail]
    · simp [mergeRecAux, hp]

theorem mergeRecAux_path_of_not_found (rootPath : String) (change : Change) :
    ∀ l : List FileChange,
      l.any (fun c => c.path == change.uri.fsPath) = false →
        mergeRecAux rootPath change l = l ++ [toFileChange rootPath true change] := by
  intro l
  induction l with
  | nil => simp [mergeRecAux]
  | cons c cs ih =>
    intro hany
    have hp : (c.path == change.uri.fsPath) = false := by
      by_contra hcon
      simp only [Bool.not_eq_false] at hcon
      simp [List.any_cons, hcon] at hany
    have htail : cs.any (fun c => c.path == change.uri.fsPath) = false := by
      simpa [List.any_cons, hp] using hany
    simp [mergeRecAux, hp, ih htail]

theorem mergeRecAux_find (rootPath : String) (change : Change) :
    ∀ (l : List FileChange) (p : String),
      (mergeRecAux rootPath change l).find? (fun c => c.path == p) =
        if p = change.uri.fsPath then
          match l.find? (fun c => c.path == p) with
          | some c => some { c with staged := true }
          | none => some (toFileChange rootPath true change)
        else l.find? (fun c => c.path == p) := by
  intro l
  induction l with
  | nil =>
    intro p
    by_cases hpf : p = change.uri.fsPath
    · simp [mergeRecAux, toFileChange, List.find?_cons, hpf]
    · have hne : (change.uri.fsPath == p) = false := by
        simp [beq_iff_eq]; exact fun h => hpf h.symm
      simp [mergeRecAux, toFileChange, List.find?_cons, hne, hpf]
  | cons c cs ih =>
    intro p
    rcases hp : (c.path == change.uri.fsPath) with _ | _
    · by_cases hpf : p = change.uri.fsPath
      · have hcp : (c.path == p) = false := by rw [hpf]; exact hp
        simp only [mergeRecAux, hp, Bool.false_eq_true, if_false, List.find?_cons, hcp]
        simpa [hcp, hpf] using ih p
      · rcases hcp : (c.path == p) with _ | _
        · simp only [mergeRecAux, hp, Bool.false_eq_true, if_false, List.find?_cons, hcp]
          simpa [hcp, hpf] using ih p
        · simp [mergeRecAux, hp, List.find?_cons, hcp, hpf]
    · by_cases hpf : p = change.uri.fsPath
      · have hcp : (c.path == p) = true := by rw [hpf]; exact hp
        simp [mergeRecAux, hp, List.find?_cons, hcp, hpf]
      · have hcp : (c.path == p) = false := by
          have hce : c.path = change.uri.fsPath := by simpa [beq_iff_eq] using hp
          simp [beq_iff_eq, hce]; exact fun h => hpf h.symm
        simp [mergeRecAux, hp, List.find?_cons, hcp, hpf]

theorem foldl_merge_find (rootPath : String) :
    ∀ (idx : List Change) (l : List FileChange) (p : String),
      (idx.foldl (mergeIndexChange rootPath) l).find? (fun c => c.path == p) =
        match l.find? (fun c => c.path == p) with
        | some c =>
          some { c with staged := c.staged || idx.any (fun ch => ch.uri.fsPath == p) }
        | none =>
          (idx.find? (fun ch => ch.uri.fsPath == p)).map (toFileChange rootPath true) := by
  intro idx
  induction idx with
  | nil =>
    intro l p
    cases hfc : l.find? (fun c => c.path == p) with
    | none => simp [hfc]
    | some c => simp [hfc]
  | cons ch rest ih =>
    intro l p
    have hstep : (ch :: rest).foldl (mergeIndexChange rootPath) l =
        rest.foldl (mergeIndexChange rootPath) (mergeIndexChange rootPath l ch) := rfl
    rw [hstep, ih (mergeIndexChange rootPath l ch) p,
      mergeIndexChange_eq_rec rootPath ch l, mergeRecAux_find rootPath ch l p]
    by_cases hpf : p = ch.uri.fsPath
    · have hbt : (ch.uri.fsPath == p) = true := by simp [hpf]
      cases hfc : l.find? (fun c => c.path == p) with
      | some c => simp [hpf, hfc, hbt, List.any_cons, List.find?_cons]
      | none => simp [hpf, hfc, hbt, List.any_cons, List.find?_cons, toFileChange]
    · have hbf : (ch.uri.fsPath == p) = false := by
        simp [beq_iff_eq]; exact fun h => hpf h.symm
      cases hfc : l.find? (fun c => c.path == p) with
      | some c => simp [hpf, hfc, hbf, List.any_cons, List.find?_cons]
      | none => simp [hpf, hfc, hbf, List.any_cons, List.find?_cons]

theorem foldl_merge_nodup (rootPath : String) :
    ∀ (idx : List Change) (l : List FileChange),
      (l.map (fun c => c.path)).Nodup →
        ((idx.foldl (mergeIndexChange rootPath) l).map (fun c => c.path)).Nodup := by
  intro idx
  induction idx with
  | nil => intro l h; simpa using h
  | cons ch rest ih =>
    intro l h
    rw [show (ch :: rest).foldl (mergeIndexChange rootPath) l =
        rest.foldl (mergeIndexChange rootPath) (mergeIndexChange rootPath l ch) from rfl]
    apply ih
    rw [mergeIndexChange_eq_rec]
    rcases hany : l.any (fun c => c.path == ch.uri.fsPath) with _ | _
    · rw [mergeRecAux_path_of_not_found rootPath ch l hany]
      have hnotmem : ch.uri.fsPath ∉ l.map (fun c => c.path) := by
        rw [List.any_eq_false] at hany
        intro hmem
        obtain ⟨c, hcl, hce⟩ := List.mem_map.mp hmem
        exact hany c hcl (by simp [hce])
      rw [List.map_append]
      rw [List.nodup_append]
      refine ⟨h, by simp, ?_⟩
      intro a ha hb
      simp only [List.map_cons, List.map_nil, List.mem_cons, List.not_mem_nil,
        or_false] at hb
      subst hb
      exact hnotmem ha
    · rw [mergeRecAux_path_of_found rootPath ch l hany]
      exact h

theorem foldl_merge_mem (rootPath : String) (idx : List Change)
    (l : List FileChange) (p : String) :
    p ∈ (idx.foldl (mergeIndexChange rootPath) l).map (fun c => c.path) ↔
      p ∈ l.map (fun c => c.path) ∨ ∃ ch ∈ idx, ch.uri.fsPath = p := by
  have hiff : ∀ (m : List FileChange),
      p ∈ m.map (fun c => c.path) ↔ (m.find? (fun c => c.path == p)).isSome = true := by
    intro m
    rw [List.find?_isSome]
    constructor
    · intro hm
      obtain ⟨c, hcm, hcp⟩ := List.mem_map.mp hm
      exact ⟨c, hcm, by simp [hcp]⟩
    · rintro ⟨c, hcm, hcp⟩
      exact List.mem_map.mpr ⟨c, hcm, by simpa [beq_iff_eq] using hcp⟩
  rw [hiff, hiff, foldl_merge_find]
  cases hfc : l.find? (fun c => c.path == p) with
  | some c => simp [hfc]
  | none =>
    cases hfi : idx.find? (fun ch => ch.uri.fsPath == p) with
    | some ic =>
      have hp2 := List.find?_some hfi
      have hm2 : ic ∈ idx := List.mem_of_find?_eq_some hfi
      simp only [hfc, hfi, Option.map_some', Option.isSome_some, Option.isSome_none,
        Bool.false_eq_true, false_or, true_iff]
      exact ⟨ic, hm2, by simpa [beq_iff_eq] using hp2⟩
    | none =>
      have hno : ∀ ch2 ∈ idx, ¬ ch2.uri.fsPath = p := by
        intro ch2 hch2 he
        have hsome : (idx.find? (fun ch => ch.uri.fsPath == p)).isSome = true :=
          List.find?_isSome.mpr ⟨ch2, hch2, by simp [he]⟩
        rw [hfi] at hsome
        cases hsome
      simp only [hfc, hfi, Option.map_none', Option.isSome_none, Bool.false_eq_true,
        false_or, false_iff, not_exists]
      intro x hx
      exact hno x hx.1 hx.2

theorem mergeRecAux_preserves (rootPath : String) (change : Change) :
    ∀ (l : List FileChange), ∀ c ∈ l,
      ∃ c2 ∈ mergeRecAux rootPath change l, c2.path = c.path ∧ c2.status = c.status := by
  intro l
  induction l with
  | nil => simp
  | cons d ds ih =>
    intro c hc
    rcases hp : (d.path == change.uri.fsPath) with _ | _
    · rcases List.mem_cons.mp hc with rfl | hc2
      · exact ⟨c, by simp [mergeRecAux, hp], rfl, rfl⟩
      · obtain ⟨c2, hmem, h1, h2⟩ := ih c hc2
        exact ⟨c2, by simp [mergeRecAux, hp, hmem], h1, h2⟩
    · rcases List.mem_cons.mp hc with rfl | hc2
      · exact ⟨{ c with staged := true }, by simp [mergeRecAux, hp], rfl, rfl⟩
      · exact ⟨c, by simp [mergeRecAux, hp, hc2], rfl, rfl⟩

theorem foldl_merge_preserves (rootPath : String) :
    ∀ (idx : List Change) (l : List FileChange), ∀ c ∈ l,
      ∃ c2 ∈ idx.foldl (mergeIndexChange rootPath) l,
        c2.path = c.path ∧ c2.status = c.status := by
  intro idx
  induction idx with
  | nil => intro l c hc; exact ⟨c, by simpa using hc, rfl, rfl⟩
  | cons ch rest ih =>
    intro l c hc
    rw [show (ch :: rest).foldl (mergeIndexChange rootPath) l =
        rest.foldl (mergeIndexChange rootPath) (mergeIndexChange rootPath l ch) from rfl]
    obtain ⟨c1, hm1, hp1, hs1⟩ := mergeRecAux_preserves rootPath ch l c hc
    rw [← mergeIndexChange_eq_rec rootPath ch l] at hm1
    obtain ⟨c2, hm2, hp2, hs2⟩ := ih (mergeIndexChange rootPath l ch) c1 hm1
    exact ⟨c2, hm2, hp2.trans hp1, hs2.trans hs1⟩

theorem find?_change_self_of_nodup :
    ∀ (wt : List Change), (wt.map (fun w => w.uri.fsPath)).Nodup →
      ∀ ch ∈ wt, wt.find? (fun w => w.uri.fsPath == ch.uri.fsPath) = some ch := by
  intro wt
  induction wt with
  | nil => simp
  | cons w ws ih =>
    intro hnd ch hch
    rw [List.map_cons, List.nodup_cons] at hnd
    rcases List.mem_cons.mp hch with rfl | hch2
    · simp [List.find?_cons]
    · have hne : (w.uri.fsPath == ch.uri.fsPath) = false := by
        simp only [beq_eq_false_iff_ne, ne_eq]
        intro he
        exact hnd.1 (by rw [he]; exact List.mem_map_of_mem _ hch2)
      simp [List.find?_cons, hne, ih hnd.2 ch hch2]

theorem seeded_find (rootPath : String) (wt : List Change) (p : String) :
    (wt.map (toFileChange rootPath false)).find? (fun c => c.path == p) =
      (wt.find? (fun w => w.uri.fsPath == p)).map (toFileChange rootPath false) := by
  rw [List.find?_map]
  congr 1

theorem seeded_paths (rootPath : String) (wt : List Change) :
    (wt.map (toFileChange rootPath false)).map (fun c => c.path) =
      wt.map (fun w => w.uri.fsPath) := by
  simp [List.map_map, toFileChange, Function.comp]

/-- C4 counterexample: a working-tree change list carrying two entries with
the same path makes the unified output list that path twice, so over
arbitrary input pairs the no-duplicates property fails. -/
theorem getChangedFiles_duplicate_cex :
    ((getChangedFiles (some
        { rootUri := { fsPath := "r", toStr := "r" },
          state :=
            { workingTreeChanges :=
                [{ uri := { fsPath := "a", toStr := "ua" }, status := Status.MODIFIED },
                { uri := { fsPath := "a", toStr := "ua" }, status := Status.DELETED }],
                indexChanges := [], HEAD := none } })).map (fun c => c.path) = ["a", "a"])
    ∧
    ¬ ((getChangedFiles (some
        { rootUri := { fsPath := "r", toStr := "r" },
          state :=
            { workingTreeChanges :=
                [{ uri := { fsPath := "a", toStr := "ua" }, status := Status.MODIFIED },
                { uri := { fsPath := "a", toStr := "ua" }, status := Status.DELETED }],
                indexChanges := [], HEAD := none } })).map (fun c => c.path)).Nodup := by
  constructor
  · rfl
  · decide

/-- C4 amended: provided the working-tree change list has pairwise-distinct
paths (as a git status list does), each distinct path appears exactly once
in the unified output: the output path list has no duplicates, and a path
occurs in it exactly when it occurs in the working-tree or the index
change set. -/
theorem getChangedFiles_unique_paths (repo : Repository)
    (hnd : (repo.state.workingTreeChanges.map (fun w => w.uri.fsPath)).Nodup) :
    ((getChangedFiles (some repo)).map (fun c => c.path)).Nodup ∧
    ∀ p : String,
      (p ∈ (getChangedFiles (some repo)).map (fun c => c.path) ↔
        p ∈ repo.state.workingTreeChanges.map (fun w => w.uri.fsPath) ∨
        ∃ ch ∈ repo.state.indexChanges, ch.uri.fsPath = p) := by
  have hg : getChangedFiles (some repo) =
      repo.state.indexChanges.foldl (mergeIndexChange repo.rootUri.fsPath)
        (repo.state.workingTreeChanges.map (toFileChange repo.rootUri.fsPath false)) := rfl
  constructor
  · rw [hg]
    apply foldl_merge_nodup
    rw [seeded_paths]
    exact hnd
  · intro p
    rw [hg, foldl_merge_mem, seeded_paths]

/-- Witness for C4 amended at a concrete repository with one working-tree
change and one index change on distinct paths. -/
theorem getChangedFiles_unique_paths_witness :
    ((getChangedFiles (some
        { rootUri := { fsPath := "r", toStr := "r" },
          state :=
            { workingTreeChanges :=
                [{ uri := { fsPath := "a", toStr := "ua" }, status := Status.MODIFIED }],
                indexChanges :=
                [{ uri := { fsPath := "b", toStr := "ub" }, status := Status.INDEX_ADDED }],
                HEAD := none } })).map (fun c => c.path)).Nodup :=
  (getChangedFiles_unique_paths
    { rootUri := { fsPath := "r", toStr := "r" },
      state :=
        { workingTreeChanges :=
            [{ uri := { fsPath := "a", toStr := "ua" }, status := Status.MODIFIED }],
            indexChanges :=
            [{ uri := { fsPath := "b", toStr := "ub" }, status := Status.INDEX_ADDED }],
            HEAD := none } } (by decide)).1

/-- C5: when the working-tree change list has pairwise-distinct paths, a
path present in both the working-tree and the index change sets yields a
single unified entry: it is staged, it carries the status classification
computed from the working-tree entry, and every output entry with that
path is this one entry. -/
theorem getChangedFiles_both_sets (repo : Repository) (ch : Change)
    (hnd : (repo.state.workingTreeChanges.map (fun w => w.uri.fsPath)).Nodup)
    (hw : ch ∈ repo.state.workingTreeChanges)
    (hi : ∃ ic ∈ repo.state.indexChanges, ic.uri.fsPath = ch.uri.fsPath) :
    ∃ c, c ∈ getChangedFiles (some repo) ∧ c.path = ch.uri.fsPath ∧
      c.staged = true ∧ c.status = convertStatus ch.status ∧
      ∀ c2 ∈ getChangedFiles (some repo), c2.path = ch.uri.fsPath → c2 = c := by
  have hg : getChangedFiles (some repo) =
      repo.state.indexChanges.foldl (mergeIndexChange repo.rootUri.fsPath)
        (repo.state.workingTreeChanges.map (toFileChange repo.rootUri.fsPath false)) := rfl
  have hfind : (getChangedFiles (some repo)).find? (fun c => c.path == ch.uri.fsPath) =
      some { toFileChange repo.rootUri.fsPath false ch with staged := true } := by
    rw [hg, foldl_merge_find, seeded_find,
      find?_change_self_of_nodup repo.state.workingTreeChanges hnd ch hw]
    have hany : repo.state.indexChanges.any
        (fun ic => ic.uri.fsPath == ch.uri.fsPath) = true := by
      rw [List.any_eq_true]
      obtain ⟨ic, hic, he⟩ := hi
      exact ⟨ic, hic, by simp [he]⟩
    simp [hany]
  have hmem : ({ toFileChange repo.rootUri.fsPath false ch with staged := true }
      : FileChange) ∈ getChangedFiles (some repo) :=
    List.mem_of_find?_eq_some hfind
  have hnodup : ((getChangedFiles (some repo)).map (fun c => c.path)).Nodup := by
    rw [hg]
    apply foldl_merge_nodup
    rw [seeded_paths]
    exact hnd
  refine ⟨{ toFileChange repo.rootUri.fsPath false ch with staged := true },
    hmem, by simp [toFileChange], rfl, by simp [toFileChange], ?_⟩
  intro c2 hc2 hpath
  exact List.inj_on_of_nodup_map hnodup hc2 hmem (by simp [toFileChange, hpath])

/-- Witness for C5 at a concrete repository whose single path is changed in
both the working tree (MODIFIED) and the index (INDEX_MODIFIED). -/
theorem getChangedFiles_both_sets_witness :
    ∃ c, c ∈ getChangedFiles (some
        { rootUri := { fsPath := "r", toStr := "r" },
          state :=
            { workingTreeChanges :=
                [{ uri := { fsPath := "a", toStr := "ua" }, status := Status.MODIFIED }],
                indexChanges :=
                [{ uri := { fsPath := "a", toStr := "ua" }, status := Status.INDEX_MODIFIED }],
                HEAD := none } }) ∧ c.path = "a" ∧
      c.staged = true ∧ c.status = convertStatus Status.MODIFIED ∧
      ∀ c2 ∈ getChangedFiles (some
        { rootUri := { fsPath := "r", toStr := "r" },
          state :=
            { workingTreeChanges :=
                [{ uri := { fsPath := "a", toStr := "ua" }, status := Status.MODIFIED }],
                indexChanges :=
                [{ uri := { fsPath := "a", toStr := "ua" }, status := Status.INDEX_MODIFIED }],
                HEAD := none } }), c2.path = "a" → c2 = c :=
  getChangedFiles_both_sets
    { rootUri := { fsPath := "r", toStr := "r" },
      state :=
        { workingTreeChanges :=
            [{ uri := { fsPath := "a", toStr := "ua" }, status := Status.MODIFIED }],
            indexChanges :=
            [{ uri := { fsPath := "a", toStr := "ua" }, status := Status.INDEX_MODIFIED }],
            HEAD := none } }
    { uri := { fsPath := "a", toStr := "ua" }, status := Status.MODIFIED }
    (by decide) (by decide)
    ⟨{ uri := { fsPath := "a", toStr := "ua" }, status := Status.INDEX_MODIFIED },
      by decide, rfl⟩

/-- C6 counterexample: a path whose index entry carries the merge-conflict
code BOTH_MODIFIED while its working-tree entry carries plain MODIFIED is
reported with status modified, not conflicted: the conflicted
classification does not take priority when the conflict code sits on the
index side of an already-listed path. -/
theorem conflict_priority_cex :
    convertStatus Status.BOTH_MODIFIED = FileStatus.conflicted ∧
    (getChangedFiles (some
        { rootUri := { fsPath := "r", toStr := "r" },
          state :=
            { workingTreeChanges :=
                [{ uri := { fsPath := "a", toStr := "ua" }, status := Status.MODIFIED }],
                indexChanges :=
                [{ uri := { fsPath := "a", toStr := "ua" }, status := Status.BOTH_MODIFIED }],
                HEAD := none } })).map (fun c => (c.path, c.status, c.staged)) =
      [("a", FileStatus.modified, true)] := by
  constructor
  · rfl
  · rfl

/-- C6 amended: every both-sides conflict code is classified conflicted by
convertStatus, and any path whose working-tree entry carries a
conflict-classified code is reported conflicted in the unified output; an
index-side conflict code on a path already listed by the working tree does
not override the working-tree classification. -/
theorem conflict_codes_classification :
    (convertStatus Status.BOTH_ADDED = FileStatus.conflicted ∧
     convertStatus Status.BOTH_DELETED = FileStatus.conflicted ∧
     convertStatus Status.BOTH_MODIFIED = FileStatus.conflicted ∧
     convertStatus Status.ADDED_BY_US = FileStatus.conflicted ∧
     convertStatus Status.ADDED_BY_THEM = FileStatus.conflicted ∧
     convertStatus Status.DELETED_BY_US = FileStatus.conflicted ∧
     convertStatus Status.DELETED_BY_THEM = FileStatus.conflicted) ∧
    ∀ (repo : Repository) (ch : Change), ch ∈ repo.state.workingTreeChanges →
      convertStatus ch.status = FileStatus.conflicted →
      ∃ c ∈ getChangedFiles (some repo),
        c.path = ch.uri.fsPath ∧ c.status = FileStatus.conflicted := by
  refine ⟨⟨rfl, rfl, rfl, rfl, rfl, rfl, rfl⟩, ?_⟩
  intro repo ch hch hconf
  have hg : getChangedFiles (some repo) =
      repo.state.indexChanges.foldl (mergeIndexChange repo.rootUri.fsPath)
        (repo.state.workingTreeChanges.map (toFileChange repo.rootUri.fsPath false)) := rfl
  have hseed : toFileChange repo.rootUri.fsPath false ch ∈
      repo.state.workingTreeChanges.map (toFileChange repo.rootUri.fsPath false) :=
    List.mem_map_of_mem _ hch
  obtain ⟨c2, hm2, hp2, hs2⟩ :=
    foldl_merge_preserves repo.rootUri.fsPath repo.state.indexChanges
      (repo.state.workingTreeChanges.map (toFileChange repo.rootUri.fsPath false))
      (toFileChange repo.rootUri.fsPath false ch) hseed
  rw [← hg] at hm2
  refine ⟨c2, hm2, ?_, ?_⟩
  · rw [hp2]; simp [toFileChange]
  · rw [hs2]; simpa [toFileChange] using hconf

/-- Witness for C6 amended: a working-tree entry carrying BOTH_ADDED is
reported conflicted. -/
theorem conflict_codes_classification_witness :
    ∃ c ∈ getChangedFiles (some
        { rootUri := { fsPath := "r", toStr := "r" },
          state :=
            { workingTreeChanges :=
                [{ uri := { fsPath := "a", toStr := "ua" }, status := Status.BOTH_ADDED }],
                indexChanges := [], HEAD := none } }),
      c.path = "a" ∧ c.status = FileStatus.conflicted :=
  conflict_codes_classification.2
    { rootUri := { fsPath := "r", toStr := "r" },
      state :=
        { workingTreeChanges :=
            [{ uri := { fsPath := "a", toStr := "ua" }, status := Status.BOTH_ADDED }],
            indexChanges := [], HEAD := none } }
    { uri := { fsPath := "a", toStr := "ua" }, status := Status.BOTH_ADDED }
    (by decide) rfl

/-- C10: getChangedFiles with no bound repository returns the empty list;
being a total function of the embedded state, the call never faults. -/
theorem getChangedFiles_no_repository : getChangedFiles none = [] := rfl

/-- C7 counterexample: a repository whose HEAD branch has no upstream
configured (upstream, ahead and behind all absent) still gets a present
sync status of zero ahead and zero behind, not the absent value, so
"absent exactly when no upstream is configured" fails on the code. -/
theorem getSyncStatus_no_upstream_cex :
    ({ name := some "main", upstream := none, ahead := none,
       behind := none : Branch }).upstream = none ∧
    getSyncStatus (some
      { rootUri := { fsPath := "r", toStr := "r" },
        state :=
          { workingTreeChanges := [], indexChanges := [],
            HEAD := some { name := some "main", upstream := none,
                           ahead := none, behind := none } } }) =
      some { ahead := 0, behind := 0 } := by
  constructor
  · rfl
  · rfl

/-- C7 amended: getSyncStatus is absent exactly when no repository is bound
or the repository has no HEAD branch; when a HEAD exists the result is
always present and equals its ahead and behind metadata with 0 substituted
for an absent field - in particular a branch with ahead 2 and behind 0
yields the pair (2, 0), and the values are non-negative whenever the
stored metadata is. -/
theorem getSyncStatus_amended (repo : Repository) :
    getSyncStatus (none : Option Repository) = none ∧
    (getSyncStatus (some repo) = none ↔ repo.state.HEAD = none) ∧
    ∀ hd : Branch, repo.state.HEAD = some hd →
      (getSyncStatus (some repo) =
        some { ahead := hd.ahead.getD 0, behind := hd.behind.getD 0 } ∧
       (hd.ahead = some 2 → hd.behind = some 0 →
         getSyncStatus (some repo) = some { ahead := 2, behind := 0 }) ∧
       ((∀ a : Int, hd.ahead = some a → 0 ≤ a) →
        (∀ a : Int, hd.behind = some a → 0 ≤ a) →
        ∀ st : SyncStatus, getSyncStatus (some repo) = some st →
          0 ≤ st.ahead ∧ 0 ≤ st.behind)) := by
  refine ⟨rfl, ?_, ?_⟩
  · cases hh : repo.state.HEAD with
    | none => simp [getSyncStatus, hh]
    | some hd => simp [getSyncStatus, hh]
  · intro hd hh
    refine ⟨by simp [getSyncStatus, hh], ?_, ?_⟩
    · intro ha hb
      simp [getSyncStatus, hh, ha, hb]
    · intro hpa hpb st hst
      simp only [getSyncStatus, hh, Option.some.injEq] at hst
      constructor
      · rw [← hst]
        cases hak : hd.ahead with
        | none => simp
        | some a => simpa using hpa a hak
      · rw [← hst]
        cases hbk : hd.behind with
        | none => simp
        | some a => simpa using hpb a hbk

/-- Witness for C7 amended at a branch with upstream metadata ahead 2,
behind 0. -/
theorem getSyncStatus_amended_witness :
    getSyncStatus (some
      { rootUri := { fsPath := "r", toStr := "r" },
        state :=
          { workingTreeChanges := [], indexChanges := [],
            HEAD := some { name := some "main", upstream := some "origin/main",
                           ahead := some 2, behind := some 0 } } }) =
      some { ahead := 2, behind := 0 } :=
  (((getSyncStatus_amended
    { rootUri := { fsPath := "r", toStr := "r" },
      state :=
        { workingTreeChanges := [], indexChanges := [],
          HEAD := some { name := some "main", upstream := some "origin/main",
                         ahead := some 2, behind := some 0 } } }).2.2
    { name := some "main", upstream := some "origin/main",
      ahead := some 2, behind := some 0 } rfl).2.1) rfl rfl

theorem isPrefixOf_append_self :
    ∀ (l m : List Char), l.isPrefixOf (l ++ m) = true := by
  intro l m
  induction l with
  | nil => simp [List.isPrefixOf]
  | cons a as ih => simp [List.isPrefixOf, ih]

/-- C8: applyTemplate leaves the message unchanged exactly when it already
starts with the template and otherwise prepends the template, and it is
idempotent: applying the same template twice equals applying it once. -/
theorem applyTemplate_idempotent :
    (∀ current template : String, applyTemplate current template =
      if jsStartsWith current template then current else template ++ current) ∧
    (∀ s t : String, applyTemplate (applyTemplate s t) t = applyTemplate s t) := by
  refine ⟨fun _ _ => rfl, ?_⟩
  intro s t
  rcases h : jsStartsWith s t with _ | _
  · have h2 : jsStartsWith (t ++ s) t = true := by
      unfold jsStartsWith
      rw [String.data_append]
      exact isPrefixOf_append_self t.data s.data
    simp [applyTemplate, h, h2]
  · simp [applyTemplate, h]

/-- C9: undoLastCommit on a repository whose log reports zero commits
returns the defined failure record (success false with the no-commits
error payload) without issuing any state-mutating command, whatever the
outcome of the undo command capability would have been; and on every
failure outcome no state-mutating command has succeeded, so the
repository state is left unchanged. The embedding is a total function, so no unhandled
fault is possible. -/
theorem undoLastCommit_zero_commits :
    (∀ u : Except String Unit,
      undoLastCommit (some { log1 := Except.ok [], undoOutcome := u }) =
        ({ success := false, error := some "No commits to undo" }, [])) ∧
    (∀ r : Option UndoRepo, (undoLastCommit r).1.success = false →
      (undoLastCommit r).2.filter (fun c => c.2) = []) := by
  constructor
  · intro u
    rfl
  · intro r h
    match r with
    | none => rfl
    | some rep =>
      cases hl : rep.log1 with
      | error e => simp [undoLastCommit, hl]
      | ok commits =>
        cases hc : commits.length with
        | zero => simp [undoLastCommit, hl, hc]
        | succ n =>
          cases hu : rep.undoOutcome with
          | error e => simp [undoLastCommit, hl, hc, hu]
          | ok u =>
            exfalso
            simp [undoLastCommit, hl, hc, hu] at h

/-- Witness for C9: the zero-commit repository and the no-repository case,
each instantiated concretely. -/
theorem undoLastCommit_zero_commits_witness :
    undoLastCommit (some { log1 := Except.ok [], undoOutcome := Except.ok () }) =
      ({ success := false, error := some "No commits to undo" }, []) ∧
    (undoLastCommit none).2.filter (fun c => c.2) = [] :=
  ⟨undoLastCommit_zero_commits.1 (Except.ok ()),
   undoLastCommit_zero_commits.2 none rfl⟩

end GitToys
